import Mathlib

/-!
Verification of the music-survey grouping system (spec.md) against its code.

Shallow embedding, in two halves:

* `src/src/processing/feature_engineer.py` (`FeatureEngineer`): feature-vector
  construction (`create_music_dna`), pairwise similarity
  (`calculate_similarity_matrix`), and twin search (`find_music_twins`).
  Float arithmetic is embedded as real arithmetic (`ℝ`); `find_music_twins`
  only compares and sorts entries, so it is embedded over any linear ordered
  field, which keeps it executable at `ℚ`.

* The group-formation engine.  `demo/app.py` imports
  `src.models.group_formation.GroupFormationEngine`, but no file
  `src/models/group_formation.py` exists in the repository; that component is
  modelled from the spec (each such definition is marked
  `Modelled from the spec:` in its doc comment).  The population gate and view
  choice of the Group Finder tab of `demo/app.py` are embedded from that file.
-/

/- ------------------------------------------------------------------ -/
/- Definitions: FeatureEngineer similarity (feature_engineer.py)      -/
/- ------------------------------------------------------------------ -/

/-- Dot product of two feature rows, `np.dot` on equal-length float rows
(`List.zipWith` truncates at the shorter row; callers pass rows of one
rectangular array). -/
def dot (x y : List ℝ) : ℝ := (List.zipWith (fun a b => a * b) x y).sum

/-- `sklearn.metrics.pairwise.cosine_similarity` on one pair of rows:
`⟨x,y⟩ / (‖x‖‖y‖)`.  sklearn L2-normalizes each row, flooring a zero norm
(a zero row stays zero and all its similarities are `0`); Lean's `x / 0 = 0`
convention gives exactly that value, so no explicit guard is needed. -/
noncomputable def cosineSim (x y : List ℝ) : ℝ :=
  dot x y / (Real.sqrt (dot x x) * Real.sqrt (dot y y))

/-- `sklearn.metrics.pairwise.euclidean_distances` on one pair of rows. -/
noncomputable def euclideanDist (x y : List ℝ) : ℝ :=
  Real.sqrt (List.zipWith (fun a b => (a - b) ^ 2) x y).sum

/-- The full cosine-similarity matrix `cosine_similarity(features)`. -/
noncomputable def cosineSimMatrix (features : List (List ℝ)) : List (List ℝ) :=
  features.map fun x => features.map fun y => cosineSim x y

/-- The full distance matrix `euclidean_distances(features)`. -/
noncomputable def distanceMatrix (features : List (List ℝ)) : List (List ℝ) :=
  features.map fun x => features.map fun y => euclideanDist x y

/-- `distances.max()`: largest entry of a matrix.  The fold starts at `0`;
for a nonempty distance matrix this is the true maximum, since the diagonal
entry `0` is always present and all entries are nonnegative. -/
noncomputable def maxEntry (m : List (List ℝ)) : ℝ := m.flatten.foldr max 0

/-- `max_dist = distances.max() if distances.max() > 0 else 1`
(feature_engineer.py line 110): the normalizing denominator, floored at 1. -/
noncomputable def maxDist (features : List (List ℝ)) : ℝ :=
  if 0 < maxEntry (distanceMatrix features) then maxEntry (distanceMatrix features) else 1

/-- `similarity = 1 - (distances / max_dist)` (feature_engineer.py line 111). -/
noncomputable def euclideanSimMatrix (features : List (List ℝ)) : List (List ℝ) :=
  features.map fun x => features.map fun y => 1 - euclideanDist x y / maxDist features

/-- `FeatureEngineer.calculate_similarity_matrix` (feature_engineer.py
lines 88-115).  Empty input returns the empty array; an unknown metric raises
`ValueError`, embedded as `none`. -/
noncomputable def calculate_similarity_matrix (features : List (List ℝ))
    (metric : String) : Option (List (List ℝ)) :=
  if features.length = 0 then some []
  else if metric = "cosine" then some (cosineSimMatrix features)
  else if metric = "euclidean" then some (euclideanSimMatrix features)
  else none

/-- `m[i][j]` with numpy-style in-bounds access embedded as `getD` (all uses
are guarded by bounds hypotheses). -/
def matEntry (m : List (List ℝ)) (i j : ℕ) : ℝ := (m.getD i []).getD j 0

/-- The comparison `find_music_twins` sorts by: pairs `(index, similarity)`
ordered by similarity. -/
def bySim {α : Type} [LinearOrder α] (p q : ℕ × α) : Prop := p.2 ≤ q.2

instance bySimDecidable {α : Type} [LinearOrder α] : DecidableRel (bySim (α := α)) :=
  fun p q => inferInstanceAs (Decidable (p.2 ≤ q.2))

instance bySimTotal {α : Type} [LinearOrder α] : IsTotal (ℕ × α) (bySim (α := α)) :=
  ⟨fun p q => le_total p.2 q.2⟩

instance bySimTrans {α : Type} [LinearOrder α] : IsTrans (ℕ × α) (bySim (α := α)) :=
  ⟨fun _ _ _ h1 h2 => le_trans h1 h2⟩

/-- `FeatureEngineer.find_music_twins` (feature_engineer.py lines 117-151).

* out-of-range `user_idx` returns `[]` (line 131);
* the user's own entry is overwritten with `-1` (line 137);
* `valid_indices` keeps the indices whose similarity meets `min_similarity`
  (line 140); only when that set is empty does the code fall back to all
  indices except the user (lines 142-145);
* ascending `argsort`, the slice `[-top_k:]` and the reversal (line 149) are
  embedded as an ascending sort of the `(index, similarity)` pairs followed by
  dropping all but the last `top_k` and reversing.  Python's `a[-0:]` is the
  whole list, hence the `topK = 0` case.  numpy's unstable `argsort` fixes
  ties in an unspecified deterministic way; the embedding uses the insertion
  sort order (no claim below depends on tie order). -/
def twinsRow {α : Type} [LinearOrderedField α] (userIdx : ℕ) (sm : List (List α)) :
    List α :=
  (sm.getD userIdx []).set userIdx (-1)

/-- `valid_indices` (feature_engineer.py lines 140-145): the indices meeting
the threshold, or — only when none does — every index except the user. -/
def twinsValid {α : Type} [LinearOrderedField α] (userIdx : ℕ) (row : List α)
    (minSim : α) : List ℕ :=
  if ((List.range row.length).filter fun i => minSim ≤ row.getD i 0).isEmpty then
    (List.range row.length).filter fun i => i ≠ userIdx
  else (List.range row.length).filter fun i => minSim ≤ row.getD i 0

/-- The `(index, similarity)` pairs of the valid indices in ascending
similarity order (the `argsort` of line 149 applied to
`valid_similarities`). -/
def twinsSorted {α : Type} [LinearOrderedField α] (userIdx : ℕ) (sm : List (List α))
    (minSim : α) : List (ℕ × α) :=
  List.insertionSort bySim
    ((twinsValid userIdx (twinsRow userIdx sm) minSim).map
      fun i => (i, (twinsRow userIdx sm).getD i 0))

def find_music_twins {α : Type} [LinearOrderedField α] (userIdx : ℕ)
    (sm : List (List α)) (topK : ℕ) (minSim : α) : List (ℕ × α) :=
  if sm.length ≤ userIdx then []
  else if topK = 0 then (twinsSorted userIdx sm minSim).reverse
  else ((twinsSorted userIdx sm minSim).drop
    ((twinsSorted userIdx sm minSim).length - topK)).reverse

/- ------------------------------------------------------------------ -/
/- Definitions: create_music_dna vectorization (feature_engineer.py)  -/
/- ------------------------------------------------------------------ -/

/-- `FeatureEngineer.CORE_FEATURES`. -/
def CORE_FEATURES : List String :=
  ["audio_danceability", "audio_energy", "audio_valence",
   "audio_acousticness", "audio_speechiness", "audio_instrumentalness"]

/-- `FeatureEngineer.EXTENDED_FEATURES`. -/
def EXTENDED_FEATURES : List String :=
  ["audio_liveness", "audio_loudness", "audio_tempo"]

/-- `self.features = CORE_FEATURES + (EXTENDED_FEATURES if use_extended else [])`. -/
def engineerFeatures (useExtended : Bool) : List String :=
  CORE_FEATURES ++ if useExtended then EXTENDED_FEATURES else []

/-- A pandas DataFrame as `create_music_dna` reads it: a row count and named
columns of optional numeric cells (`none` is NaN).  Cell values are embedded
as `ℚ` (any concrete float is rational), which keeps the definitions
executable. -/
structure DataFrame where
  nrows : ℕ
  cols : List (String × List (Option ℚ))

/-- The cells of column `c`, or `[]` when the DataFrame has no such column. -/
def colVals (df : DataFrame) (c : String) : List (Option ℚ) :=
  ((df.cols.find? fun p => p.1 = c).map Prod.snd).getD []

/-- Whether column `c` exists (`f in df.columns`). -/
def hasCol (df : DataFrame) (c : String) : Bool :=
  (df.cols.find? fun p => p.1 = c).isSome

/-- `available_features` of `create_music_dna` (feature_engineer.py lines
57-66): when some configured features are missing from the DataFrame, only
the available ones are used. -/
def availableFeatures (df : DataFrame) (useExtended : Bool) : List String :=
  (engineerFeatures useExtended).filter fun c => hasCol df c

/-- The matrix `X = df[available_features].fillna(0).values` of
`create_music_dna` (feature_engineer.py lines 57-71): one vector per row of
the DataFrame, one entry per available feature, NaN imputed as `0`.  When no
configured feature is available the function returns the empty array (line
64).  The subsequent `StandardScaler`/`PCA` steps (lines 75-81, standard
sklearn fits) keep the row count and produce one constant-length vector per
row, so the shape claims about `create_music_dna` are decided by `X`. -/
def create_music_dna_X (df : DataFrame) (useExtended : Bool) : List (List ℚ) :=
  let avail := availableFeatures df useExtended
  if avail.isEmpty then []
  else (List.range df.nrows).map fun i =>
    avail.map fun c => ((colVals df c).getD i none).getD 0

/- ------------------------------------------------------------------ -/
/- Definitions: GroupRegistry and mutation (modelled from the spec)   -/
/- ------------------------------------------------------------------ -/

/-- Modelled from the spec: `demo/app.py` imports
`src.models.group_formation.GroupFormationEngine`, but the file
`src/models/group_formation.py` is not in the repository, so the registry
state is taken from spec §3 "GroupRegistry" and §4.2: a list of groups (each
a list of member names), the one-way finalization flag, and the configured
size bounds. -/
structure GroupRegistry where
  groups : List (List String)
  finalized : Bool
  minSize : ℕ
  maxSize : ℕ

/-- Modelled from the spec: `get_group_by_member` (spec §4.2) — the index of
the group containing the person, or a not-found signal. -/
def get_group_by_member (r : GroupRegistry) (m : String) : Option ℕ :=
  r.groups.findIdx? fun g => m ∈ g

/-- Modelled from the spec: `request_group_change(member, target_group)`
(spec §4.2 mutation contract).  Fails (`none`) if the registry is finalized;
the target group does not exist; the member is not tracked; the move would
shrink the member's current group below the minimum size; or it would grow
the target group above the maximum size.  Otherwise atomically removes the
member from their current group and appends them to the target group. -/
def request_group_change (r : GroupRegistry) (m : String) (t : ℕ) : Option GroupRegistry :=
  if r.finalized then none
  else if r.groups.length ≤ t then none
  else match get_group_by_member r m with
    | none => none
    | some c =>
      if (r.groups.getD c []).length - 1 < r.minSize then none
      else if r.maxSize < (r.groups.getD t []).length + 1 then none
      else
        let removed := r.groups.set c ((r.groups.getD c []).erase m)
        some { r with groups := removed.set t (removed.getD t [] ++ [m]) }

/-- The registry's mutation operations (spec §4.2: join requests and the
one-way finalization; no un-finalize operation exists). -/
inductive RegistryOp where
  | change (m : String) (t : ℕ)
  | lock

/-- Modelled from the spec: one mutation attempt.  A rejected
`request_group_change` leaves the registry unchanged; `lock` sets the
finalization latch. -/
def applyOp (r : GroupRegistry) : RegistryOp → GroupRegistry
  | RegistryOp.change m t => (request_group_change r m t).getD r
  | RegistryOp.lock => { r with finalized := true }

/-- A sequence of mutation attempts. -/
def applyOps (r : GroupRegistry) (ops : List RegistryOp) : GroupRegistry :=
  ops.foldl applyOp r

/- ------------------------------------------------------------------ -/
/- Definitions: initial group formation (modelled from the spec)      -/
/- ------------------------------------------------------------------ -/

/-- Modelled from the spec (§4.2 step 4): mean similarity of person `p` to
the current members of a group (`ℚ` division; a group is never empty when
this is consulted). -/
def meanSim (sim : ℕ → ℕ → ℚ) (p : ℕ) (g : List ℕ) : ℚ :=
  (g.map (sim p)).sum / g.length

/-- Deterministic argmax with the spec's tie-breaks (§4.2 step 4): highest
score first, then smaller current size, then lowest index (the fold keeps the
earliest best, and candidate lists are in increasing index order). -/
def chooseBest (score : ℕ → ℚ) (size : ℕ → ℕ) (c : ℕ) (rest : List ℕ) : ℕ :=
  rest.foldl (fun best g =>
    if score best < score g ∨ (score g = score best ∧ size g < size best) then g else best) c

/-- Modelled from the spec (§4.2 step 4): the group receiving person `p` —
best mean similarity among groups still below the maximum size; when every
group is at the maximum (the spec's last-resort relaxation, step 5: never
drop a person) the choice is made over all groups. -/
def pickGroup (sim : ℕ → ℕ → ℚ) (maxSize : ℕ) (gs : List (List ℕ)) (p : ℕ) : ℕ :=
  let cands0 := (List.range gs.length).filter fun g => (gs.getD g []).length < maxSize
  let cands := if cands0.isEmpty then List.range gs.length else cands0
  chooseBest (fun g => meanSim sim p (gs.getD g []))
    (fun g => (gs.getD g []).length) (cands.headD 0) cands.tail

/-- Add person `p` to the chosen group. -/
def assignOne (sim : ℕ → ℕ → ℚ) (maxSize : ℕ) (gs : List (List ℕ)) (p : ℕ) :
    List (List ℕ) :=
  let g := pickGroup sim maxSize gs p
  gs.set g (gs.getD g [] ++ [p])

/-- Modelled from the spec (§4.2 step 4): assign every remaining person in
input order. -/
def assignAll (sim : ℕ → ℕ → ℚ) (maxSize : ℕ) (gs : List (List ℕ)) (ps : List ℕ) :
    List (List ℕ) :=
  ps.foldl (assignOne sim maxSize) gs

/-- Modelled from the spec (§4.2 step 5): mean pairwise similarity between
two groups, used to pick the merge target. -/
def groupPairSim (sim : ℕ → ℕ → ℚ) (g h : List ℕ) : ℚ :=
  ((g.map fun a => (h.map (sim a)).sum).sum) / (g.length * h.length)

/-- Modelled from the spec (§4.2 step 5): while some group is below the
minimum size (and at least two groups remain), merge it into the most-similar
other group that can accept it without exceeding the maximum; if none can,
relax the maximum by the smallest amount necessary, i.e. merge into the
smallest other group.  Fuel bounds the recursion; each step removes one
group, so `gs.length` fuel suffices. -/
def mergeSmall (sim : ℕ → ℕ → ℚ) (minSize maxSize : ℕ) :
    ℕ → List (List ℕ) → List (List ℕ)
  | 0, gs => gs
  | fuel + 1, gs =>
    if gs.length ≤ 1 then gs
    else match (List.range gs.length).find? (fun i => (gs.getD i []).length < minSize) with
      | none => gs
      | some i =>
        let small := gs.getD i []
        let others := (List.range gs.length).filter fun j => j ≠ i
        let fitting := others.filter fun j => (gs.getD j []).length + small.length ≤ maxSize
        let target :=
          if fitting.isEmpty then
            chooseBest (fun j => -(((gs.getD j []).length : ℚ)))
              (fun j => (gs.getD j []).length) (others.headD 0) others.tail
          else
            chooseBest (fun j => groupPairSim sim small (gs.getD j []))
              (fun j => (gs.getD j []).length) (fitting.headD 0) fitting.tail
        mergeSmall sim minSize maxSize fuel
          ((gs.set target (gs.getD target [] ++ small)).eraseIdx i)

/-- Modelled from the spec: `GroupFormationEngine.create_groups` initial
partition (§4.2 steps 2-5) over the population `0, …, n-1` with similarity
matrix `sim`.  Target group count is `⌈n / ideal⌉`; the seeds are the first
`⌈n / ideal⌉` people in input order (the spec's documented deterministic seed
policy); the rest are assigned greedily; undersized groups are merged. -/
def create_groups (sim : ℕ → ℕ → ℚ) (n ideal minSize maxSize : ℕ) : List (List ℕ) :=
  let k := (n + ideal - 1) / ideal
  let seeds := (List.range k).map fun i => [i]
  let gs := assignAll sim maxSize seeds ((List.range n).drop k)
  mergeSmall sim minSize maxSize gs.length gs

/- ------------------------------------------------------------------ -/
/- Definitions: Group Finder population gate (demo/app.py)            -/
/- ------------------------------------------------------------------ -/

/-- What the Group Finder tab shows for a given population. -/
inductive GroupFinderView where
  | formation
  | insufficient (population : ℕ)
  | waiting
deriving DecidableEq

/-- The population gate of the Group Finder tab (demo/app.py lines 336, 468,
472): formation controls (and the only `create_groups` call) when the
DataFrame is nonempty with at least 6 rows; the "Need at least 6 people to
form groups. Currently have {n} people." message when nonempty below 6; the
"Waiting for people to join..." message when empty. -/
def group_finder_view (n : ℕ) : GroupFinderView :=
  if n ≠ 0 ∧ 6 ≤ n then GroupFinderView.formation
  else if n ≠ 0 ∧ n < 6 then GroupFinderView.insufficient n
  else GroupFinderView.waiting

/- ------------------------------------------------------------------ -/
/- Lemmas: dot product and distances                                  -/
/- ------------------------------------------------------------------ -/

theorem dot_comm (x y : List ℝ) : dot x y = dot y x := by
  unfold dot
  rw [List.zipWith_comm]
  have h : (fun b a : ℝ => a * b) = fun a b : ℝ => a * b := by
    funext a b; ring
  rw [h]

theorem dot_self_nonneg (x : List ℝ) : 0 ≤ dot x x := by
  unfold dot
  rw [List.zipWith_same]
  refine List.sum_nonneg ?_
  intro v hv
  rcases List.mem_map.1 hv with ⟨a, _, rfl⟩
  exact mul_self_nonneg a

theorem dot_eq_sum_range : ∀ (x y : List ℝ), x.length = y.length →
    dot x y = ∑ i ∈ Finset.range x.length, x.getD i 0 * y.getD i 0 := by
  intro x
  induction x with
  | nil => intro y _; simp [dot]
  | cons a x ih =>
    intro y h
    cases y with
    | nil => simp at h
    | cons b y =>
      have h2 : x.length = y.length := by simpa using h
      have hx : dot (a :: x) (b :: y) = a * b + dot x y := by
        simp [dot]
      rw [hx, ih y h2, List.length_cons, Finset.sum_range_succ']
      simp only [List.getD_cons_succ, List.getD_cons_zero]
      exact add_comm _ _

theorem abs_dot_le (x y : List ℝ) (h : x.length = y.length) :
    |dot x y| ≤ Real.sqrt (dot x x) * Real.sqrt (dot y y) := by
  have hx : dot x x = ∑ i ∈ Finset.range x.length, x.getD i 0 ^ 2 := by
    rw [dot_eq_sum_range x x rfl]
    refine Finset.sum_congr rfl fun i _ => ?_
    rw [sq]
  have hy : dot y y = ∑ i ∈ Finset.range x.length, y.getD i 0 ^ 2 := by
    rw [dot_eq_sum_range y y rfl, ← h]
    refine Finset.sum_congr rfl fun i _ => ?_
    rw [sq]
  have hxy := dot_eq_sum_range x y h
  rw [abs_le]
  constructor
  · have hcs := Real.sum_mul_le_sqrt_mul_sqrt (Finset.range x.length)
      (fun i => -(x.getD i 0)) (fun i => y.getD i 0)
    simp only [neg_mul, neg_sq, Finset.sum_neg_distrib] at hcs
    rw [hxy, hx, hy]
    linarith
  · have hcs := Real.sum_mul_le_sqrt_mul_sqrt (Finset.range x.length)
      (fun i => x.getD i 0) (fun i => y.getD i 0)
    rw [hxy, hx, hy]
    exact hcs

theorem cosineSim_bounds (x y : List ℝ) (h : x.length = y.length) :
    -1 ≤ cosineSim x y ∧ cosineSim x y ≤ 1 := by
  unfold cosineSim
  rcases eq_or_lt_of_le (mul_nonneg (Real.sqrt_nonneg (dot x x)) (Real.sqrt_nonneg (dot y y)))
    with h0 | h0
  · rw [← h0, div_zero]
    norm_num
  · have hb := abs_dot_le x y h
    have habs : |dot x y / (Real.sqrt (dot x x) * Real.sqrt (dot y y))| ≤ 1 := by
      rw [abs_div, abs_of_pos h0]
      exact (div_le_one h0).2 hb
    exact abs_le.1 habs

theorem euclideanDist_comm (x y : List ℝ) : euclideanDist x y = euclideanDist y x := by
  unfold euclideanDist
  rw [List.zipWith_comm]
  have h : (fun b a : ℝ => (a - b) ^ 2) = fun a b : ℝ => (a - b) ^ 2 := by
    funext a b; ring
  rw [h]

theorem euclideanDist_self (x : List ℝ) : euclideanDist x x = 0 := by
  unfold euclideanDist
  rw [List.zipWith_same]
  have h : (List.map (fun a : ℝ => (a - a) ^ 2) x).sum = 0 := by simp
  rw [h, Real.sqrt_zero]

theorem euclideanDist_nonneg (x y : List ℝ) : 0 ≤ euclideanDist x y :=
  Real.sqrt_nonneg _

/- Lemmas: folds computing the matrix maximum -/

theorem le_foldr_max (l : List ℝ) (a x : ℝ) (hx : x ∈ l) : x ≤ l.foldr max a := by
  induction l with
  | nil => cases hx
  | cons c t ih =>
    rcases List.mem_cons.1 hx with rfl | hmem
    · exact le_max_left _ _
    · exact le_trans (ih hmem) (le_max_right _ _)

theorem init_le_foldr_max (l : List ℝ) (a : ℝ) : a ≤ l.foldr max a := by
  induction l with
  | nil => exact le_refl a
  | cons c t ih => exact le_trans ih (le_max_right _ _)

theorem foldr_max_le (l : List ℝ) (a b : ℝ) (ha : a ≤ b) (h : ∀ x ∈ l, x ≤ b) :
    l.foldr max a ≤ b := by
  induction l with
  | nil => exact ha
  | cons c t ih =>
    simp only [List.foldr_cons]
    exact max_le (h c (by simp)) (ih fun x hx => h x (List.mem_cons_of_mem _ hx))

/- Lemmas: similarity-matrix entries -/

theorem matEntry_map (f : List ℝ → List ℝ → ℝ) (features : List (List ℝ)) (i j : ℕ)
    (hi : i < features.length) (hj : j < features.length) :
    matEntry (features.map fun x => features.map fun y => f x y) i j
      = f (features.getD i []) (features.getD j []) := by
  unfold matEntry
  have hmap : (features.map fun x => features.map fun y => f x y).getD i []
      = features.map fun y => f features[i] y := by
    rw [List.getD_eq_getElem _ _ (by simpa using hi)]
    exact List.getElem_map _
  rw [hmap]
  have hrow : (features.map fun y => f features[i] y).getD j 0 = f features[i] features[j] := by
    rw [List.getD_eq_getElem _ _ (by simpa using hj)]
    exact List.getElem_map _
  rw [hrow, List.getD_eq_getElem _ _ hi, List.getD_eq_getElem _ _ hj]

theorem dist_mem_flatten (features : List (List ℝ)) (i j : ℕ)
    (hi : i < features.length) (hj : j < features.length) :
    euclideanDist (features.getD i []) (features.getD j [])
      ∈ (distanceMatrix features).flatten := by
  rw [List.mem_flatten]
  refine ⟨features.map fun y => euclideanDist (features.getD i []) y, ?_, ?_⟩
  · unfold distanceMatrix
    rw [List.getD_eq_getElem _ _ hi]
    exact List.mem_map_of_mem _ (List.getElem_mem hi)
  · rw [List.getD_eq_getElem _ _ hj]
    exact List.mem_map_of_mem _ (List.getElem_mem hj)

theorem maxDist_pos (features : List (List ℝ)) : 0 < maxDist features := by
  unfold maxDist
  split
  · assumption
  · exact one_pos

theorem dist_le_maxDist (features : List (List ℝ)) (i j : ℕ)
    (hi : i < features.length) (hj : j < features.length) :
    euclideanDist (features.getD i []) (features.getD j []) ≤ maxDist features := by
  have hle : euclideanDist (features.getD i []) (features.getD j [])
      ≤ maxEntry (distanceMatrix features) :=
    le_foldr_max _ _ _ (dist_mem_flatten features i j hi hj)
  unfold maxDist
  split
  · exact hle
  · next hneg => linarith [not_lt.1 hneg]

/- ------------------------------------------------------------------ -/
/- Claim C4: square, symmetric, diagonal                              -/
/- ------------------------------------------------------------------ -/

/-- C4 (amended): for every nonempty feature array and both supported
metrics, the matrix returned by `calculate_similarity_matrix` is square and
symmetric; every diagonal entry equals 1 for the euclidean metric, and for
the cosine metric whenever the corresponding feature row is not the zero
vector (sklearn maps a zero row's self-similarity to 0, see the
counterexample). -/
theorem sim_matrix_square_symm_diag (features : List (List ℝ)) (metric : String)
    (hne : features ≠ []) (hm : metric = "cosine" ∨ metric = "euclidean") :
    ∃ M, calculate_similarity_matrix features metric = some M ∧
      M.length = features.length ∧
      (∀ row ∈ M, row.length = features.length) ∧
      (∀ i j, i < features.length → j < features.length → matEntry M i j = matEntry M j i) ∧
      (∀ i, i < features.length →
        (metric = "euclidean" ∨ dot (features.getD i []) (features.getD i []) ≠ 0) →
        matEntry M i i = 1) := by
  have hlen : ¬ features.length = 0 := by
    simpa [List.length_eq_zero] using hne
  rcases hm with hm | hm <;> subst hm
  · refine ⟨cosineSimMatrix features, ?_, ?_, ?_, ?_, ?_⟩
    · unfold calculate_similarity_matrix
      rw [if_neg hlen, if_pos rfl]
    · simp [cosineSimMatrix]
    · intro row hrow
      rcases List.mem_map.1 hrow with ⟨x, _, rfl⟩
      simp
    · intro i j hi hj
      unfold cosineSimMatrix
      rw [matEntry_map _ _ _ _ hi hj, matEntry_map _ _ _ _ hj hi]
      unfold cosineSim
      rw [dot_comm, mul_comm]
    · intro i hi hcond
      rcases hcond with hmet | hdot
      · exact absurd hmet (by decide)
      · unfold cosineSimMatrix
        rw [matEntry_map _ _ _ _ hi hi]
        unfold cosineSim
        rw [Real.mul_self_sqrt (dot_self_nonneg _)]
        exact div_self hdot
  · refine ⟨euclideanSimMatrix features, ?_, ?_, ?_, ?_, ?_⟩
    · unfold calculate_similarity_matrix
      rw [if_neg hlen, if_neg (by decide), if_pos rfl]
    · simp [euclideanSimMatrix]
    · intro row hrow
      rcases List.mem_map.1 hrow with ⟨x, _, rfl⟩
      simp
    · intro i j hi hj
      unfold euclideanSimMatrix
      rw [matEntry_map _ _ _ _ hi hj, matEntry_map _ _ _ _ hj hi, euclideanDist_comm]
    · intro i hi _
      unfold euclideanSimMatrix
      rw [matEntry_map _ _ _ _ hi hi, euclideanDist_self, zero_div, sub_zero]

/-- C4 witness: the amended theorem applied to the concrete one-row array
`[[1]]` with the euclidean metric. -/
theorem sim_matrix_square_symm_diag_witness :
    ([[(1:ℝ)]] ≠ [] ∧ ("euclidean" = "cosine" ∨ "euclidean" = "euclidean")) ∧
    (∃ M, calculate_similarity_matrix [[(1:ℝ)]] "euclidean" = some M ∧
      M.length = [[(1:ℝ)]].length ∧
      (∀ row ∈ M, row.length = [[(1:ℝ)]].length) ∧
      (∀ i j, i < [[(1:ℝ)]].length → j < [[(1:ℝ)]].length →
        matEntry M i j = matEntry M j i) ∧
      (∀ i, i < [[(1:ℝ)]].length →
        ("euclidean" = "euclidean" ∨
          dot ([[(1:ℝ)]].getD i []) ([[(1:ℝ)]].getD i []) ≠ 0) →
        matEntry M i i = 1)) :=
  ⟨⟨by simp, Or.inr rfl⟩,
    sim_matrix_square_symm_diag [[(1:ℝ)]] "euclidean" (by simp) (Or.inr rfl)⟩

/-- C4 counterexample: on the nonempty feature array `[[0]]` (one person,
zero feature vector) with the cosine metric, the diagonal entry is 0, not 1:
sklearn's `cosine_similarity` floors the zero norm, so the zero row has
self-similarity 0.  The claim's unconditional "every diagonal entry equals
1" is therefore false. -/
theorem cosine_zero_row_self_similarity :
    (calculate_similarity_matrix [[(0:ℝ)]] "cosine").map (fun M => matEntry M 0 0)
      ≠ some 1 := by
  have h1 : calculate_similarity_matrix [[(0:ℝ)]] "cosine"
      = some (cosineSimMatrix [[(0:ℝ)]]) := by
    unfold calculate_similarity_matrix
    rw [if_neg (by simp), if_pos rfl]
  have h2 : matEntry (cosineSimMatrix [[(0:ℝ)]]) 0 0 = 0 := by
    unfold cosineSimMatrix matEntry cosineSim dot
    simp
  rw [h1, Option.map_some', h2]
  simp

/- ------------------------------------------------------------------ -/
/- Claim C5: range of the similarity entries                          -/
/- ------------------------------------------------------------------ -/

/-- C5 (amended): for every nonempty rectangular feature array, every entry
of the euclidean-metric similarity matrix lies in [0,1]; cosine entries lie
in [-1,1] (they can be negative, see the counterexample), and identical
profiles map to 1 by the diagonal part of C4. -/
theorem sim_matrix_entries_bounded (features : List (List ℝ)) (d : ℕ)
    (hrect : ∀ row ∈ features, row.length = d) (hne : features ≠ [])
    (metric : String) (hm : metric = "cosine" ∨ metric = "euclidean") :
    ∃ M, calculate_similarity_matrix features metric = some M ∧
      ∀ i j, i < features.length → j < features.length →
        (-1 ≤ matEntry M i j ∧ matEntry M i j ≤ 1) ∧
        (metric = "euclidean" → 0 ≤ matEntry M i j) := by
  have hlen : ¬ features.length = 0 := by
    simpa [List.length_eq_zero] using hne
  rcases hm with hm | hm <;> subst hm
  · refine ⟨cosineSimMatrix features, ?_, ?_⟩
    · unfold calculate_similarity_matrix
      rw [if_neg hlen, if_pos rfl]
    · intro i j hi hj
      unfold cosineSimMatrix
      rw [matEntry_map _ _ _ _ hi hj]
      have hx : (features.getD i []).length = d := by
        refine hrect _ ?_
        rw [List.getD_eq_getElem _ _ hi]
        exact List.getElem_mem hi
      have hy : (features.getD j []).length = d := by
        refine hrect _ ?_
        rw [List.getD_eq_getElem _ _ hj]
        exact List.getElem_mem hj
      have hb := cosineSim_bounds (features.getD i []) (features.getD j [])
        (by rw [hx, hy])
      exact ⟨hb, fun hmet => absurd hmet (by decide)⟩
  · refine ⟨euclideanSimMatrix features, ?_, ?_⟩
    · unfold calculate_similarity_matrix
      rw [if_neg hlen, if_neg (by decide), if_pos rfl]
    · intro i j hi hj
      unfold euclideanSimMatrix
      rw [matEntry_map _ _ _ _ hi hj]
      have h0 : 0 ≤ euclideanDist (features.getD i []) (features.getD j []) :=
        euclideanDist_nonneg _ _
      have hle := dist_le_maxDist features i j hi hj
      have hpos := maxDist_pos features
      have hdiv0 : 0 ≤ euclideanDist (features.getD i []) (features.getD j [])
          / maxDist features := div_nonneg h0 (le_of_lt hpos)
      have hdiv1 : euclideanDist (features.getD i []) (features.getD j [])
          / maxDist features ≤ 1 := (div_le_one hpos).2 hle
      exact ⟨⟨by linarith, by linarith⟩, fun _ => by linarith⟩

/-- C5 witness: the amended theorem applied to the concrete rectangular
array `[[1],[1]]` with the euclidean metric. -/
theorem sim_matrix_entries_bounded_witness :
    ((∀ row ∈ [[(1:ℝ)], [(1:ℝ)]], row.length = 1) ∧ [[(1:ℝ)], [(1:ℝ)]] ≠ [] ∧
      ("euclidean" = "cosine" ∨ "euclidean" = "euclidean")) ∧
    (∃ M, calculate_similarity_matrix [[(1:ℝ)], [(1:ℝ)]] "euclidean" = some M ∧
      ∀ i j, i < [[(1:ℝ)], [(1:ℝ)]].length → j < [[(1:ℝ)], [(1:ℝ)]].length →
        (-1 ≤ matEntry M i j ∧ matEntry M i j ≤ 1) ∧
        ("euclidean" = "euclidean" → 0 ≤ matEntry M i j)) :=
  ⟨⟨by intro row hrow; simp at hrow; rw [hrow]; rfl,
      by simp, Or.inr rfl⟩,
    sim_matrix_entries_bounded [[(1:ℝ)], [(1:ℝ)]] 1
      (by intro row hrow; simp at hrow; rw [hrow]; rfl) (by simp)
      "euclidean" (Or.inr rfl)⟩

/-- C5 counterexample: on the feature array `[[1], [-1]]` with the cosine
metric (a supported metric), the off-diagonal entry is `-1`, which does not
lie in [0,1]; the claim's "every entry lies in [0,1]" is false for cosine. -/
theorem cosine_entry_negative :
    (calculate_similarity_matrix [[(1:ℝ)], [(-1:ℝ)]] "cosine").map
      (fun M => matEntry M 0 1) = some (-1) ∧ ((-1:ℝ) < 0) := by
  constructor
  · have h1 : calculate_similarity_matrix [[(1:ℝ)], [(-1:ℝ)]] "cosine"
        = some (cosineSimMatrix [[(1:ℝ)], [(-1:ℝ)]]) := by
      unfold calculate_similarity_matrix
      rw [if_neg (by simp), if_pos rfl]
    rw [h1, Option.map_some']
    have h2 : matEntry (cosineSimMatrix [[(1:ℝ)], [(-1:ℝ)]]) 0 1 = -1 := by
      unfold cosineSimMatrix matEntry
      simp only [List.map_cons, List.map_nil, List.getD_cons_zero, List.getD_cons_succ]
      unfold cosineSim dot
      simp [Real.sqrt_one]
    rw [h2]
  · norm_num

/- ------------------------------------------------------------------ -/
/- Claim C7: degenerate euclidean input                               -/
/- ------------------------------------------------------------------ -/

/-- C7: when all pairwise distances are 0 (a single record, or all records
identical), the euclidean branch floors the normalizing denominator at 1
(`max_dist = 1`), is total (never raises), and every entry of the returned
matrix equals 1. -/
theorem euclidean_degenerate_all_ones (features : List (List ℝ)) (hne : features ≠ [])
    (hdeg : ∀ x ∈ features, ∀ y ∈ features, euclideanDist x y = 0) :
    maxDist features = 1 ∧
    ∃ M, calculate_similarity_matrix features "euclidean" = some M ∧
      ∀ i j, i < features.length → j < features.length → matEntry M i j = 1 := by
  have hlen : ¬ features.length = 0 := by
    simpa [List.length_eq_zero] using hne
  have hflat : ∀ v ∈ (distanceMatrix features).flatten, v = 0 := by
    intro v hv
    rcases List.mem_flatten.1 hv with ⟨row, hrow, hvrow⟩
    unfold distanceMatrix at hrow
    rcases List.mem_map.1 hrow with ⟨x, hx, rfl⟩
    rcases List.mem_map.1 hvrow with ⟨y, hy, rfl⟩
    exact hdeg x hx y hy
  have hmax : maxEntry (distanceMatrix features) = 0 := by
    unfold maxEntry
    have h1 : (distanceMatrix features).flatten.foldr max 0 ≤ 0 :=
      foldr_max_le _ _ _ (le_refl 0) fun x hx => le_of_eq (hflat x hx)
    have h2 : (0:ℝ) ≤ (distanceMatrix features).flatten.foldr max 0 :=
      init_le_foldr_max _ _
    linarith
  have hmd : maxDist features = 1 := by
    unfold maxDist
    rw [hmax]
    norm_num
  refine ⟨hmd, euclideanSimMatrix features, ?_, ?_⟩
  · unfold calculate_similarity_matrix
    rw [if_neg hlen, if_neg (by decide), if_pos rfl]
  · intro i j hi hj
    unfold euclideanSimMatrix
    rw [matEntry_map _ _ _ _ hi hj]
    have hd : euclideanDist (features.getD i []) (features.getD j []) = 0 := by
      refine hdeg _ ?_ _ ?_
      · rw [List.getD_eq_getElem _ _ hi]
        exact List.getElem_mem hi
      · rw [List.getD_eq_getElem _ _ hj]
        exact List.getElem_mem hj
    rw [hd, zero_div, sub_zero]

/-- C7 witness: the theorem applied to the single-record array `[[2]]`. -/
theorem euclidean_degenerate_all_ones_witness :
    ([[(2:ℝ)]] ≠ [] ∧ ∀ x ∈ [[(2:ℝ)]], ∀ y ∈ [[(2:ℝ)]], euclideanDist x y = 0) ∧
    (maxDist [[(2:ℝ)]] = 1 ∧
      ∃ M, calculate_similarity_matrix [[(2:ℝ)]] "euclidean" = some M ∧
        ∀ i j, i < [[(2:ℝ)]].length → j < [[(2:ℝ)]].length → matEntry M i j = 1) := by
  have hdeg : ∀ x ∈ [[(2:ℝ)]], ∀ y ∈ [[(2:ℝ)]], euclideanDist x y = 0 := by
    intro x hx y hy
    simp at hx hy
    rw [hx, hy]
    exact euclideanDist_self _
  exact ⟨⟨by simp, hdeg⟩, euclidean_degenerate_all_ones [[(2:ℝ)]] (by simp) hdeg⟩

/- ------------------------------------------------------------------ -/
/- Claim C10: find_music_twins on an out-of-range index               -/
/- ------------------------------------------------------------------ -/

/-- C10: for every similarity matrix and every user index at or beyond the
number of rows, `find_music_twins` returns the empty list for all `top_k`
and `min_similarity` (the guard at feature_engineer.py line 131; the
function is total, so no exception is possible). -/
theorem find_music_twins_out_of_range {α : Type} [LinearOrderedField α] (userIdx : ℕ)
    (sm : List (List α)) (topK : ℕ) (minSim : α) (h : sm.length ≤ userIdx) :
    find_music_twins userIdx sm topK minSim = [] := by
  unfold find_music_twins
  rw [if_pos h]

/-- C10 witness: the theorem applied to a concrete 1-row matrix and index 5. -/
theorem find_music_twins_out_of_range_witness :
    ([[(1:ℚ)]].length ≤ 5) ∧ find_music_twins 5 [[(1:ℚ)]] 3 (7/10) = [] :=
  ⟨by decide, find_music_twins_out_of_range 5 [[(1:ℚ)]] 3 (7/10) (by decide)⟩

/- ------------------------------------------------------------------ -/
/- Claim C6: find_music_twins result shape                            -/
/- ------------------------------------------------------------------ -/

theorem getD_set_self {α : Type} (l : List α) (u : ℕ) (a d : α) (h : u < l.length) :
    (l.set u a).getD u d = a := by
  rw [List.getD_eq_getElem _ _ (by simpa using h)]
  exact List.getElem_set_self _

theorem getD_set_ne {α : Type} (l : List α) (u i : ℕ) (a d : α) (h : u ≠ i) :
    (l.set u a).getD i d = l.getD i d := by
  rw [List.getD_eq_getElem?_getD, List.getD_eq_getElem?_getD, List.getElem?_set_ne h]

theorem length_filter_ne_range (n u : ℕ) :
    ((List.range n).filter fun i => i ≠ u).length = n - (if u < n then 1 else 0) := by
  induction n with
  | zero => simp
  | succ n ih =>
    rw [List.range_succ, List.filter_append, List.length_append, ih]
    by_cases hun : n = u
    · subst hun
      have hn : [n].filter (fun i => i ≠ n) = [] := by simp
      rw [hn]
      simp only [List.length_nil]
      split_ifs <;> omega
    · have hn : [n].filter (fun i => i ≠ u) = [n] := by simp [hun]
      rw [hn]
      simp only [List.length_cons, List.length_nil]
      split_ifs <;> omega

theorem twinsValid_ne {α : Type} [LinearOrderedField α] (userIdx : ℕ) (row : List α)
    (minSim : α) (hval : row.getD userIdx 0 = -1) (ht : -1 < minSim) :
    ∀ i ∈ twinsValid userIdx row minSim, i ≠ userIdx := by
  intro i hi
  unfold twinsValid at hi
  split at hi
  · simpa using (List.mem_filter.1 hi).2
  · have h2 : minSim ≤ row.getD i 0 := by
      simpa using (List.mem_filter.1 hi).2
    intro hiq
    rw [hiq, hval] at h2
    linarith

/-- C6 (amended): for every square similarity matrix, every in-range person
index, every `top_k ≥ 1` and every threshold above the sentinel `-1`,
`find_music_twins` returns at most `top_k` pairs, all with index distinct
from the queried person, sorted descending by similarity; and whenever **no**
other person meets the threshold it falls back to the top `top_k` overall
(`min top_k (n-1)` results).  The original claim's stronger fallback — "
whenever fewer than `top_k` meet the threshold" — is false (see the
counterexample): with at least one above-threshold match the code returns
only the above-threshold matches, even when fewer than `top_k`. -/
theorem find_music_twins_spec {α : Type} [LinearOrderedField α]
    (sm : List (List α)) (userIdx topK : ℕ) (minSim : α)
    (hsq : ∀ row ∈ sm, row.length = sm.length)
    (hu : userIdx < sm.length) (hk : 1 ≤ topK) (ht : -1 < minSim) :
    (find_music_twins userIdx sm topK minSim).length ≤ topK ∧
    (∀ p ∈ find_music_twins userIdx sm topK minSim, p.1 ≠ userIdx) ∧
    List.Sorted (fun p q : ℕ × α => q.2 ≤ p.2) (find_music_twins userIdx sm topK minSim) ∧
    ((∀ i, i < sm.length → i ≠ userIdx → (sm.getD userIdx []).getD i 0 < minSim) →
      (find_music_twins userIdx sm topK minSim).length = min topK (sm.length - 1)) := by
  have hrowmem : sm.getD userIdx [] ∈ sm := by
    rw [List.getD_eq_getElem _ _ hu]
    exact List.getElem_mem hu
  have hrowlen : (twinsRow userIdx sm).length = sm.length := by
    unfold twinsRow
    rw [List.length_set]
    exact hsq _ hrowmem
  have hvalu : (twinsRow userIdx sm).getD userIdx 0 = -1 := by
    unfold twinsRow
    exact getD_set_self _ _ _ _ (by rw [hsq _ hrowmem]; exact hu)
  have hne0 : ¬ sm.length ≤ userIdx := not_le.2 hu
  have hk0 : ¬ topK = 0 := by omega
  have heq : find_music_twins userIdx sm topK minSim
      = ((twinsSorted userIdx sm minSim).drop
          ((twinsSorted userIdx sm minSim).length - topK)).reverse := by
    unfold find_music_twins
    rw [if_neg hne0, if_neg hk0]
  have hmem : ∀ p ∈ find_music_twins userIdx sm topK minSim,
      ∃ i ∈ twinsValid userIdx (twinsRow userIdx sm) minSim,
        (i, (twinsRow userIdx sm).getD i 0) = p := by
    intro p hp
    rw [heq, List.mem_reverse] at hp
    have hp2 : p ∈ twinsSorted userIdx sm minSim :=
      List.Sublist.mem hp (List.drop_sublist _ _)
    unfold twinsSorted at hp2
    have hp3 := (List.perm_insertionSort bySim _).mem_iff.1 hp2
    exact List.mem_map.1 hp3
  have hb : ∀ p ∈ find_music_twins userIdx sm topK minSim, p.1 ≠ userIdx := by
    intro p hp
    rcases hmem p hp with ⟨i, hi, rfl⟩
    exact twinsValid_ne userIdx (twinsRow userIdx sm) minSim hvalu ht i hi
  have hlen_le : (find_music_twins userIdx sm topK minSim).length ≤ topK := by
    rw [heq, List.length_reverse, List.length_drop]
    omega
  have hsorted : List.Sorted (fun p q : ℕ × α => q.2 ≤ p.2)
      (find_music_twins userIdx sm topK minSim) := by
    rw [heq]
    refine List.pairwise_reverse.2 ?_
    have hs : List.Pairwise bySim (twinsSorted userIdx sm minSim) := by
      unfold twinsSorted
      exact List.sorted_insertionSort bySim _
    have hkept : List.Pairwise bySim
        ((twinsSorted userIdx sm minSim).drop
          ((twinsSorted userIdx sm minSim).length - topK)) :=
      List.Pairwise.sublist (List.drop_sublist _ _) hs
    exact hkept
  refine ⟨hlen_le, hb, hsorted, ?_⟩
  intro hbelow
  have hvf : ((List.range (twinsRow userIdx sm).length).filter
      fun i => minSim ≤ (twinsRow userIdx sm).getD i 0) = [] := by
    rw [List.filter_eq_nil_iff]
    intro i hi
    rw [List.mem_range, hrowlen] at hi
    by_cases hiu : i = userIdx
    · subst hiu
      simp only [decide_eq_true_eq]
      rw [hvalu]
      exact not_le.2 ht
    · simp only [decide_eq_true_eq]
      have hset : (twinsRow userIdx sm).getD i 0 = (sm.getD userIdx []).getD i 0 := by
        unfold twinsRow
        exact getD_set_ne _ _ _ _ _ fun h => hiu h.symm
      rw [hset]
      exact not_le.2 (hbelow i hi hiu)
  have hvalid : twinsValid userIdx (twinsRow userIdx sm) minSim
      = (List.range (twinsRow userIdx sm).length).filter fun i => i ≠ userIdx := by
    unfold twinsValid
    rw [hvf]
    rfl
  have hvlen : (twinsValid userIdx (twinsRow userIdx sm) minSim).length
      = sm.length - 1 := by
    rw [hvalid, hrowlen, length_filter_ne_range, if_pos hu]
  have hslen : (twinsSorted userIdx sm minSim).length = sm.length - 1 := by
    unfold twinsSorted
    rw [List.length_insertionSort, List.length_map, hvlen]
  rw [heq, List.length_reverse, List.length_drop, hslen]
  omega

/-- C6 witness: the amended theorem applied to the concrete square matrix
`[[1,1],[1,1]]`, person 0, `top_k = 1`, threshold 0. -/
theorem find_music_twins_spec_witness :
    ((∀ row ∈ [[(1:ℚ),1],[1,1]], row.length = [[(1:ℚ),1],[1,1]].length) ∧
      0 < [[(1:ℚ),1],[1,1]].length ∧ 1 ≤ 1 ∧ (-1:ℚ) < 0) ∧
    ((find_music_twins 0 [[(1:ℚ),1],[1,1]] 1 0).length ≤ 1 ∧
     (∀ p ∈ find_music_twins 0 [[(1:ℚ),1],[1,1]] 1 0, p.1 ≠ 0) ∧
     List.Sorted (fun p q : ℕ × ℚ => q.2 ≤ p.2)
       (find_music_twins 0 [[(1:ℚ),1],[1,1]] 1 0) ∧
     ((∀ i, i < [[(1:ℚ),1],[1,1]].length → i ≠ 0 →
        ([[(1:ℚ),1],[1,1]].getD 0 []).getD i 0 < 0) →
       (find_music_twins 0 [[(1:ℚ),1],[1,1]] 1 0).length
         = min 1 ([[(1:ℚ),1],[1,1]].length - 1))) :=
  ⟨⟨by decide, by decide, le_refl 1, by decide⟩,
    find_music_twins_spec [[(1:ℚ),1],[1,1]] 0 1 0 (by decide) (by decide)
      (le_refl 1) (by decide)⟩

/-- C6 counterexample: in the square matrix `[[1,1,0],[1,1,0],[0,0,1]]` with
`top_k = 2` and threshold 1, exactly one other person (index 1) meets the
threshold — fewer than `top_k` — yet the code returns only that single
match, not the top-2 overall `[(1,1),(2,0)]`.  The fallback fires only when
no one meets the threshold. -/
theorem find_music_twins_partial_result :
    find_music_twins 0 [[1,1,0],[1,1,0],[0,0,1]] 2 (1:ℚ) = [(1, 1)] ∧
    find_music_twins 0 [[1,1,0],[1,1,0],[0,0,1]] 2 (1:ℚ) ≠ [(1,1),(2,0)] := by
  constructor <;> decide

/- ------------------------------------------------------------------ -/
/- Claim C8: create_music_dna imputation and shape                    -/
/- ------------------------------------------------------------------ -/

/-- C8 (amended): during feature-vector construction, every missing value
(NaN) of a **present** audio column is imputed as 0 (`fillna(0)`), no record
is dropped (one vector per input row), and all produced vectors have the
same fixed length — the number of *available* features.  The original
claim's "no attribute is dropped" is false: a configured audio column that
is entirely absent from the DataFrame is removed from the feature list, not
imputed (see the counterexample). -/
theorem create_music_dna_shapes (df : DataFrame) (useExtended : Bool)
    (h : availableFeatures df useExtended ≠ []) :
    (create_music_dna_X df useExtended).length = df.nrows ∧
    (∀ v ∈ create_music_dna_X df useExtended,
      v.length = (availableFeatures df useExtended).length) ∧
    (∀ i, i < df.nrows → (create_music_dna_X df useExtended).getD i []
      = (availableFeatures df useExtended).map
          fun c => ((colVals df c).getD i none).getD 0) := by
  have hne : ¬ (availableFeatures df useExtended).isEmpty = true := by
    simpa [List.isEmpty_iff] using h
  simp only [create_music_dna_X]
  rw [if_neg hne]
  refine ⟨by simp, ?_, ?_⟩
  · intro v hv
    rcases List.mem_map.1 hv with ⟨i, _, rfl⟩
    simp
  · intro i hi
    rw [List.getD_eq_getElem _ _ (by simpa using hi), List.getElem_map,
      List.getElem_range]

/-- C8 witness: the amended theorem applied to a DataFrame holding all nine
configured audio columns, each with one present value and one NaN. -/
theorem create_music_dna_shapes_witness :
    (availableFeatures
        (DataFrame.mk 2 ((engineerFeatures true).map fun c => (c, [some 1, none])))
        true ≠ []) ∧
    ((create_music_dna_X
        (DataFrame.mk 2 ((engineerFeatures true).map fun c => (c, [some 1, none])))
        true).length
      = (DataFrame.mk 2 ((engineerFeatures true).map fun c => (c, [some 1, none]))).nrows ∧
     (∀ v ∈ create_music_dna_X
        (DataFrame.mk 2 ((engineerFeatures true).map fun c => (c, [some 1, none])))
        true,
       v.length = (availableFeatures
         (DataFrame.mk 2 ((engineerFeatures true).map fun c => (c, [some 1, none])))
         true).length) ∧
     (∀ i, i < (DataFrame.mk 2 ((engineerFeatures true).map fun c => (c, [some 1, none]))).nrows →
       (create_music_dna_X
         (DataFrame.mk 2 ((engineerFeatures true).map fun c => (c, [some 1, none])))
         true).getD i []
       = (availableFeatures
           (DataFrame.mk 2 ((engineerFeatures true).map fun c => (c, [some 1, none])))
           true).map
           fun c => ((colVals
             (DataFrame.mk 2 ((engineerFeatures true).map fun c => (c, [some 1, none])))
             c).getD i none).getD 0)) :=
  ⟨by decide,
    create_music_dna_shapes
      (DataFrame.mk 2 ((engineerFeatures true).map fun c => (c, [some 1, none])))
      true (by decide)⟩

/-- C8 counterexample: a DataFrame exposing only `audio_danceability` (one
record).  The eight other configured audio attributes are missing from every
record, yet the produced vector is `[1]` of length 1, not a vector of length
9 with the missing attributes imputed as 0 — absent attributes are dropped,
contradicting "every missing audio attribute of every record is imputed as 0
... and no attribute ... is dropped". -/
theorem create_music_dna_drops_absent_columns :
    create_music_dna_X (DataFrame.mk 1 [("audio_danceability", [some 1])]) true
      = [[1]] ∧
    ([(1:ℚ)] : List ℚ).length ≠ (engineerFeatures true).length := by
  constructor <;> decide

/- ------------------------------------------------------------------ -/
/- Claim C9: the population gate of the Group Finder                  -/
/- ------------------------------------------------------------------ -/

/-- C9 (amended): group formation proceeds exactly when the population is at
least 6 (twice the minimum group size); for populations 1-5 it is refused
with the explicit "Need at least 6 people" insufficient-population message
and no groups are produced; for population 0 it is also refused with no
groups, but the app shows the "Waiting for people to join" message instead
of the insufficient-population signal (see the counterexample). -/
theorem group_finder_gate (n : ℕ) :
    (group_finder_view n = GroupFinderView.formation ↔ 6 ≤ n) ∧
    (1 ≤ n → n < 6 → group_finder_view n = GroupFinderView.insufficient n) ∧
    (n = 0 → group_finder_view n = GroupFinderView.waiting) := by
  unfold group_finder_view
  by_cases h6 : 6 ≤ n
  · rw [if_pos ⟨by omega, h6⟩]
    exact ⟨⟨fun _ => h6, fun _ => rfl⟩, fun _ h5 => absurd h5 (by omega),
      fun h0 => absurd h6 (by omega)⟩
  · rw [if_neg (by tauto)]
    by_cases h0 : n = 0
    · rw [if_neg (by tauto)]
      exact ⟨⟨fun hc => absurd hc (by simp), fun hcc => absurd hcc h6⟩,
        fun h1n _ => absurd h1n (by omega), fun _ => rfl⟩
    · rw [if_pos ⟨h0, by omega⟩]
      exact ⟨⟨fun hc => absurd hc (by simp), fun hcc => absurd hcc h6⟩,
        fun _ _ => rfl, fun hz => absurd hz h0⟩

/-- C9 witness: the amended theorem applied at population 3, which yields the
insufficient-population message. -/
theorem group_finder_gate_witness :
    (1 ≤ 3 ∧ 3 < 6) ∧ group_finder_view 3 = GroupFinderView.insufficient 3 :=
  ⟨⟨by decide, by decide⟩, (group_finder_gate 3).2.1 (by decide) (by decide)⟩

/-- C9 counterexample: at population 0 (fewer than 6) the Group Finder shows
the waiting message, not the insufficient-population signal the claim
promises for every population below 6 (demo/app.py line 472). -/
theorem population_zero_not_insufficient :
    group_finder_view 0 = GroupFinderView.waiting ∧
    group_finder_view 0 ≠ GroupFinderView.insufficient 0 := by
  constructor <;> decide

/- ------------------------------------------------------------------ -/
/- Claim C2: request_group_change failure conditions                  -/
/- ------------------------------------------------------------------ -/

/-- C2: `request_group_change(member, target_group)` is rejected if and only
if the registry is finalized, the target group does not exist, the member is
not tracked, the move would shrink the member's current group below the
minimum size, or it would grow the target group above the maximum size;
otherwise it succeeds (returns the updated registry). -/
theorem request_group_change_fails_iff (r : GroupRegistry) (m : String) (t : ℕ) :
    request_group_change r m t = none ↔
      (r.finalized = true ∨ r.groups.length ≤ t ∨ get_group_by_member r m = none ∨
        (∃ c, get_group_by_member r m = some c ∧
          (r.groups.getD c []).length - 1 < r.minSize) ∨
        r.maxSize < (r.groups.getD t []).length + 1) := by
  unfold request_group_change
  by_cases hf : r.finalized = true
  · simp [hf]
  · rw [if_neg hf]
    by_cases hT : r.groups.length ≤ t
    · simp [hT]
    · rw [if_neg hT]
      rcases hg : get_group_by_member r m with _ | c
      · simp [hf, hT]
      · dsimp only
        by_cases hmin : (r.groups.getD c []).length - 1 < r.minSize
        · rw [if_pos hmin]
          exact iff_of_true rfl
            (Or.inr (Or.inr (Or.inr (Or.inl ⟨c, rfl, hmin⟩))))
        · rw [if_neg hmin]
          by_cases hmax : r.maxSize < (r.groups.getD t []).length + 1
          · rw [if_pos hmax]
            exact iff_of_true rfl (Or.inr (Or.inr (Or.inr (Or.inr hmax))))
          · rw [if_neg hmax]
            refine iff_of_false (by simp) ?_
            rintro (h | h | h | ⟨c2, hc2, hA2⟩ | h)
            · exact hf h
            · exact hT h
            · exact Option.noConfusion h
            · injection hc2 with h2
              exact hmin (h2 ▸ hA2)
            · exact hmax h

/- ------------------------------------------------------------------ -/
/- Claim C3: finalization is a one-way latch                          -/
/- ------------------------------------------------------------------ -/

/-- C3: once the registry is finalized, any sequence of subsequent mutation
attempts leaves the groups unchanged, the registry stays finalized (no
operation un-finalizes it), the read operation `get_group_by_member` keeps
answering exactly as before, and every `request_group_change` attempt is
rejected. -/
theorem finalized_latch (r : GroupRegistry) (hf : r.finalized = true)
    (ops : List RegistryOp) :
    (applyOps r ops).groups = r.groups ∧
    (applyOps r ops).finalized = true ∧
    (∀ m, get_group_by_member (applyOps r ops) m = get_group_by_member r m) ∧
    (∀ m t, request_group_change (applyOps r ops) m t = none) := by
  induction ops generalizing r with
  | nil =>
    refine ⟨rfl, hf, fun m => rfl, fun m t => ?_⟩
    show request_group_change r m t = none
    unfold request_group_change
    rw [if_pos hf]
  | cons op ops ih =>
    have hgroups : (applyOp r op).groups = r.groups := by
      cases op with
      | change m t =>
        unfold applyOp request_group_change
        dsimp only
        rw [if_pos hf]
        rfl
      | lock => rfl
    have hfin : (applyOp r op).finalized = true := by
      cases op with
      | change m t =>
        unfold applyOp request_group_change
        dsimp only
        rw [if_pos hf]
        exact hf
      | lock => rfl
    have hrest := ih (applyOp r op) hfin
    have hchain : applyOps r (op :: ops) = applyOps (applyOp r op) ops := rfl
    refine ⟨?_, ?_, ?_, ?_⟩
    · rw [hchain, hrest.1, hgroups]
    · rw [hchain]
      exact hrest.2.1
    · intro m
      rw [hchain, hrest.2.2.1 m]
      unfold get_group_by_member
      rw [hgroups]
    · intro m t
      rw [hchain]
      exact hrest.2.2.2 m t

/-- C3 witness: the theorem applied to a concrete finalized registry and a
concrete sequence of a join request followed by a redundant lock. -/
theorem finalized_latch_witness :
    (GroupRegistry.mk [["a","b","c"],["d","e","f"]] true 3 6).finalized = true ∧
    ((applyOps (GroupRegistry.mk [["a","b","c"],["d","e","f"]] true 3 6)
        [RegistryOp.change "a" 1, RegistryOp.lock]).groups
      = (GroupRegistry.mk [["a","b","c"],["d","e","f"]] true 3 6).groups ∧
     (applyOps (GroupRegistry.mk [["a","b","c"],["d","e","f"]] true 3 6)
        [RegistryOp.change "a" 1, RegistryOp.lock]).finalized = true ∧
     (∀ m, get_group_by_member
        (applyOps (GroupRegistry.mk [["a","b","c"],["d","e","f"]] true 3 6)
          [RegistryOp.change "a" 1, RegistryOp.lock]) m
        = get_group_by_member (GroupRegistry.mk [["a","b","c"],["d","e","f"]] true 3 6) m) ∧
     (∀ m t, request_group_change
        (applyOps (GroupRegistry.mk [["a","b","c"],["d","e","f"]] true 3 6)
          [RegistryOp.change "a" 1, RegistryOp.lock]) m t = none)) :=
  ⟨rfl, finalized_latch (GroupRegistry.mk [["a","b","c"],["d","e","f"]] true 3 6) rfl
    [RegistryOp.change "a" 1, RegistryOp.lock]⟩

/- ------------------------------------------------------------------ -/
/- Claim C1: initial formation partitions the population              -/
/- ------------------------------------------------------------------ -/

theorem foldl_choose_mem (f : ℕ → ℕ → ℕ) (hf : ∀ a b, f a b = a ∨ f a b = b) :
    ∀ (l : List ℕ) (a : ℕ), l.foldl f a = a ∨ l.foldl f a ∈ l := by
  intro l
  induction l with
  | nil => intro a; exact Or.inl rfl
  | cons b l ih =>
    intro a
    rw [List.foldl_cons]
    rcases ih (f a b) with h | h
    · rcases hf a b with h2 | h2
      · exact Or.inl (h.trans h2)
      · exact Or.inr (by rw [h, h2]; exact List.mem_cons_self b l)
    · exact Or.inr (List.mem_cons_of_mem b h)

theorem chooseBest_mem (score : ℕ → ℚ) (size : ℕ → ℕ) (c : ℕ) (rest : List ℕ) :
    chooseBest score size c rest = c ∨ chooseBest score size c rest ∈ rest := by
  unfold chooseBest
  refine foldl_choose_mem _ ?_ rest c
  intro a b
  by_cases h : score a < score b ∨ (score b = score a ∧ size b < size a)
  · rw [if_pos h]
    exact Or.inr rfl
  · rw [if_neg h]
    exact Or.inl rfl

theorem chooseBest_headD_mem (score : ℕ → ℚ) (size : ℕ → ℕ) (cands : List ℕ)
    (hne : cands ≠ []) :
    chooseBest score size (cands.headD 0) cands.tail ∈ cands := by
  rcases cands with _ | ⟨c, rest⟩
  · exact absurd rfl hne
  · rw [List.headD_cons, List.tail_cons]
    rcases chooseBest_mem score size c rest with h | h
    · rw [h]
      exact List.mem_cons_self c rest
    · exact List.mem_cons_of_mem c h

theorem pickGroup_lt (sim : ℕ → ℕ → ℚ) (maxSize : ℕ) (gs : List (List ℕ)) (p : ℕ)
    (h : gs ≠ []) : pickGroup sim maxSize gs p < gs.length := by
  unfold pickGroup
  dsimp only
  have hlen : gs.length ≠ 0 := by
    simpa [List.length_eq_zero] using h
  by_cases hemp : ((List.range gs.length).filter
      fun g => (gs.getD g []).length < maxSize).isEmpty = true
  · rw [if_pos hemp]
    have hmem := chooseBest_headD_mem
      (fun g => meanSim sim p (gs.getD g [])) (fun g => (gs.getD g []).length)
      (List.range gs.length) (by simpa [List.range_eq_nil] using hlen)
    simpa using hmem
  · rw [if_neg hemp]
    have hne : ((List.range gs.length).filter
        fun g => (gs.getD g []).length < maxSize) ≠ [] := by
      simpa [List.isEmpty_iff] using hemp
    have hmem := chooseBest_headD_mem
      (fun g => meanSim sim p (gs.getD g [])) (fun g => (gs.getD g []).length) _ hne
    have hrange := List.mem_of_mem_filter hmem
    simpa using hrange

theorem count_flatten_set (x : ℕ) : ∀ (l : List (List ℕ)) (i : ℕ) (v : List ℕ),
    i < l.length →
    (l.set i v).flatten.count x + (l.getD i []).count x
      = l.flatten.count x + v.count x := by
  intro l
  induction l with
  | nil => intro i v h; simp at h
  | cons g l ih =>
    intro i v h
    cases i with
    | zero =>
      simp only [List.set_cons_zero, List.flatten_cons, List.count_append,
        List.getD_cons_zero]
      omega
    | succ i =>
      simp only [List.set_cons_succ, List.flatten_cons, List.count_append,
        List.getD_cons_succ]
      have hih := ih i v (by simpa using h)
      omega

theorem count_flatten_eraseIdx (x : ℕ) : ∀ (l : List (List ℕ)) (i : ℕ),
    i < l.length →
    (l.eraseIdx i).flatten.count x + (l.getD i []).count x = l.flatten.count x := by
  intro l
  induction l with
  | nil => intro i h; simp at h
  | cons g l ih =>
    intro i h
    cases i with
    | zero =>
      simp only [List.eraseIdx_cons_zero, List.flatten_cons, List.count_append,
        List.getD_cons_zero]
      omega
    | succ i =>
      simp only [List.eraseIdx_cons_succ, List.flatten_cons, List.count_append,
        List.getD_cons_succ]
      have hih := ih i (by simpa using h)
      omega

theorem merge_step_count (gs : List (List ℕ)) (i T x : ℕ) (hi : i < gs.length)
    (hT : T < gs.length) (hTi : T ≠ i) :
    ((gs.set T (gs.getD T [] ++ gs.getD i [])).eraseIdx i).flatten.count x
      = gs.flatten.count x := by
  have h1 := count_flatten_eraseIdx x (gs.set T (gs.getD T [] ++ gs.getD i [])) i
    (by rw [List.length_set]; exact hi)
  have h2 : (gs.set T (gs.getD T [] ++ gs.getD i [])).getD i [] = gs.getD i [] :=
    getD_set_ne _ _ _ _ _ hTi
  have h3 := count_flatten_set x gs T (gs.getD T [] ++ gs.getD i []) hT
  rw [h2] at h1
  rw [List.count_append] at h3
  omega

theorem assignOne_length (sim : ℕ → ℕ → ℚ) (maxSize : ℕ) (gs : List (List ℕ))
    (p : ℕ) : (assignOne sim maxSize gs p).length = gs.length := by
  unfold assignOne
  dsimp only
  rw [List.length_set]

theorem assignOne_count (sim : ℕ → ℕ → ℚ) (maxSize : ℕ) (gs : List (List ℕ))
    (p x : ℕ) (h : gs ≠ []) :
    (assignOne sim maxSize gs p).flatten.count x
      = gs.flatten.count x + [p].count x := by
  unfold assignOne
  dsimp only
  have hg := pickGroup_lt sim maxSize gs p h
  have hset := count_flatten_set x gs (pickGroup sim maxSize gs p)
    (gs.getD (pickGroup sim maxSize gs p) [] ++ [p]) hg
  rw [List.count_append] at hset
  omega

theorem assignAll_count (sim : ℕ → ℕ → ℚ) (maxSize : ℕ) :
    ∀ (ps : List ℕ) (gs : List (List ℕ)) (x : ℕ), gs ≠ [] →
    (assignAll sim maxSize gs ps).flatten.count x
      = gs.flatten.count x + ps.count x := by
  intro ps
  induction ps with
  | nil =>
    intro gs x h
    simp [assignAll]
  | cons p ps ih =>
    intro gs x h
    have h2 : assignOne sim maxSize gs p ≠ [] := by
      intro hc
      have hl := assignOne_length sim maxSize gs p
      rw [hc] at hl
      exact h (List.length_eq_zero.1 hl.symm)
    have hchain : assignAll sim maxSize gs (p :: ps)
        = assignAll sim maxSize (assignOne sim maxSize gs p) ps := rfl
    rw [hchain, ih _ x h2, assignOne_count sim maxSize gs p x h,
      show (p :: ps) = [p] ++ ps from rfl, List.count_append]
    omega

theorem mergeSmall_count (sim : ℕ → ℕ → ℚ) (minSize maxSize : ℕ) :
    ∀ (fuel : ℕ) (gs : List (List ℕ)) (x : ℕ),
    (mergeSmall sim minSize maxSize fuel gs).flatten.count x = gs.flatten.count x := by
  intro fuel
  induction fuel with
  | zero => intro gs x; rfl
  | succ fuel ih =>
    intro gs x
    rw [mergeSmall]
    by_cases h1 : gs.length ≤ 1
    · rw [if_pos h1]
    · rw [if_neg h1]
      rcases hfind : (List.range gs.length).find?
          (fun i => decide ((gs.getD i []).length < minSize)) with _ | i
      · rfl
      · dsimp only
        have hi : i < gs.length := by
          have hmem := List.mem_of_find?_eq_some hfind
          simpa using hmem
        have hothers_len : ((List.range gs.length).filter fun j => j ≠ i).length
            = gs.length - 1 := by
          rw [length_filter_ne_range, if_pos hi]
        have hothers_ne : ((List.range gs.length).filter fun j => j ≠ i) ≠ [] := by
          intro hc
          rw [hc] at hothers_len
          simp at hothers_len
          omega
        have hT_mem : (if ((((List.range gs.length).filter fun j => j ≠ i).filter
              fun j => (gs.getD j []).length + (gs.getD i []).length ≤ maxSize).isEmpty)
            then
              chooseBest (fun j => -(((gs.getD j []).length : ℚ)))
                (fun j => (gs.getD j []).length)
                ((((List.range gs.length).filter fun j => j ≠ i)).headD 0)
                (((List.range gs.length).filter fun j => j ≠ i)).tail
            else
              chooseBest (fun j => groupPairSim sim (gs.getD i []) (gs.getD j []))
                (fun j => (gs.getD j []).length)
                (((((List.range gs.length).filter fun j => j ≠ i).filter
                  fun j => (gs.getD j []).length + (gs.getD i []).length ≤ maxSize)).headD 0)
                (((((List.range gs.length).filter fun j => j ≠ i).filter
                  fun j => (gs.getD j []).length + (gs.getD i []).length ≤ maxSize)).tail))
            ∈ ((List.range gs.length).filter fun j => j ≠ i) := by
          split
          · exact chooseBest_headD_mem _ _ _ hothers_ne
          · next hfe =>
            have hfit_ne : (((List.range gs.length).filter fun j => j ≠ i).filter
                fun j => (gs.getD j []).length + (gs.getD i []).length ≤ maxSize) ≠ [] := by
              simpa [List.isEmpty_iff] using hfe
            exact List.mem_of_mem_filter (chooseBest_headD_mem _ _ _ hfit_ne)
        rw [ih]
        have hTlt := List.mem_range.1 (List.mem_filter.1 hT_mem).1
        have hTne := of_decide_eq_true (List.mem_filter.1 hT_mem).2
        exact merge_step_count gs i _ x hi hTlt hTne

theorem flatten_map_singleton : ∀ l : List ℕ, (l.map fun i => [i]).flatten = l := by
  intro l
  induction l with
  | nil => rfl
  | cons a l ih => simp [ih]

/-- C1: for every population of at least 6 (the app's formation threshold)
and every similarity matrix, the initial partition built by `create_groups`
contains every input person exactly once: its groups flatten to a
permutation of `0, …, n-1` (no person in two groups, none omitted, no
foreign members). -/
theorem create_groups_partition (sim : ℕ → ℕ → ℚ) (n ideal minSize maxSize : ℕ)
    (hn : 6 ≤ n) (hideal : 1 ≤ ideal) :
    (create_groups sim n ideal minSize maxSize).flatten.Perm (List.range n) := by
  have hk1 : 1 ≤ (n + ideal - 1) / ideal := by
    rw [Nat.one_le_div_iff (by omega)]
    omega
  have hkn : (n + ideal - 1) / ideal ≤ n := by
    rw [Nat.div_le_iff_le_mul_add_pred (by omega)]
    have hmul : n ≤ ideal * n := Nat.le_mul_of_pos_left n (by omega)
    omega
  rw [List.perm_iff_count]
  intro x
  unfold create_groups
  dsimp only
  rw [mergeSmall_count]
  have hseeds : ((List.range ((n + ideal - 1) / ideal)).map fun i => [i]) ≠ [] := by
    simp only [ne_eq, List.map_eq_nil_iff, List.range_eq_nil]
    omega
  rw [assignAll_count sim maxSize _ _ x hseeds, flatten_map_singleton]
  have hsplit : List.range ((n + ideal - 1) / ideal)
      ++ (List.range n).drop ((n + ideal - 1) / ideal) = List.range n := by
    have ht : (List.range n).take ((n + ideal - 1) / ideal)
        = List.range ((n + ideal - 1) / ideal) := by
      rw [List.take_range]
      rw [inf_eq_left.2 hkn]
    rw [← ht, List.take_append_drop]
  conv_rhs => rw [← hsplit, List.count_append]

/-- C1 witness: the theorem applied to a concrete population of 6 with the
constant similarity matrix and the app's configuration (ideal 4, min 3,
max 6). -/
theorem create_groups_partition_witness :
    (6 ≤ 6 ∧ 1 ≤ 4) ∧
    (create_groups (fun _ _ => 1) 6 4 3 6).flatten.Perm (List.range 6) :=
  ⟨⟨by decide, by decide⟩,
    create_groups_partition (fun _ _ => 1) 6 4 3 6 (by decide) (by decide)⟩
